import Mathlib

/-!
The generic key-value store of generics-exercises and its validating decorator.

A shallow embedding of `pkg/mem_store/mem_store.go`, `pkg/ads/ads.go` and the
store examples of `main.go`, followed by the properties proved about them.

Modelling conventions

* A Go pointer `*V` returned by a call is `Option V`: `none` is the nil
  pointer, `some v` a pointer to a fresh cell holding `v` (the calls below only
  ever return the address of a local copy, so no aliasing arises).
* A Go `error` is `Option GoError`: `none` is the nil error.
* A Go `map[K]V` is `GoMap K V`: `none` is the nil map, `some entries` an
  allocated map whose contents are the association list `entries`, the first
  entry for a key being the one in force.
* A method with a pointer receiver takes the receiver's state and returns the
  new state along with its results. A run-time panic is the outcome `none`.
* The zero value of `V` is `default` of `Inhabited V`.
* The validator of a validating store is a total, side-effect-free function,
  and the embedded `*MemStore` is owned by the decorator and not nil.
-/

set_option autoImplicit false
set_option linter.dupNamespace false

namespace mem_store

/-! ## Errors -/

/-- A non-nil Go error value, by what `Error()` and `errors.Unwrap` give on it:
`errorString` is what `fmt.Errorf` returns for a format without `%w` (and any
other error that wraps nothing), `wrapError` what it returns for a format with
one `%w` operand. -/
inductive GoError where
  | errorString (s : String)
  | wrapError (msg : String) (err : GoError)
deriving DecidableEq, Repr

/-- The method `Error()` of an error value: its message. -/
def GoError.Error : GoError → String
  | .errorString s => s
  | .wrapError msg _ => msg

/-- The method `Unwrap()` as seen by `errors.Unwrap`: the wrapped error, if any. -/
def GoError.Unwrap : GoError → Option GoError
  | .errorString _ => none
  | .wrapError _ err => some err

/-- The call `fmt.Errorf(text)` for a format `text` without verbs. -/
def Errorf (text : String) : GoError :=
  .errorString text

/-- The call `fmt.Errorf(text + "%w", err)`: the message is `text` followed by
the message of `err`, and the result wraps `err`. -/
def Errorfw (text : String) (err : GoError) : GoError :=
  .wrapError (text ++ err.Error) err

/-! ## Maps -/

/-- A Go `map[K]V`. -/
abbrev GoMap (K : Type) (V : Type) := Option (List (K × V))

/-- The entry in force for `id` in the contents of an allocated map. -/
def lookup {K V : Type} [DecidableEq K] (entries : List (K × V)) (id : K) : Option V :=
  match entries with
  | [] => none
  | (k, v) :: rest => if k = id then some v else lookup rest id

/-- The two-result index expression `val, found := m[id]`: on a nil map and on
a missing key it yields the zero value and `false`. -/
def GoMap.index {K V : Type} [DecidableEq K] [Inhabited V] (m : GoMap K V) (id : K) : V × Bool :=
  match m with
  | none => (default, false)
  | some entries =>
    match lookup entries id with
    | some v => (v, true)
    | none => (default, false)

/-- The contents of an allocated map without the entries for `id`. -/
def erase {K V : Type} [DecidableEq K] (entries : List (K × V)) (id : K) : List (K × V) :=
  match entries with
  | [] => []
  | (k, v) :: rest => if k = id then erase rest id else (k, v) :: erase rest id

/-- The assignment `m[id] = value`: it panics (`none`) on a nil map, and
otherwise replaces the entry for `id`, or adds one. -/
def GoMap.assign {K V : Type} [DecidableEq K] (m : GoMap K V) (id : K) (value : V) :
    Option (GoMap K V) :=
  match m with
  | none => none
  | some entries => some (some ((id, value) :: erase entries id))

/-! ## `MemStore` -/

/-- The struct `MemStore[K, V]`. -/
structure MemStore (K : Type) (V : Type) where
  store : GoMap K V
deriving DecidableEq

/-- The function `newMemStore`: a store over the empty map literal. -/
def newMemStore {K V : Type} : MemStore K V :=
  { store := some [] }

/-- The method `(*MemStore).Find`: it reads the map and returns the address of
the local copy `val`, never nil. It assigns to nothing. -/
def MemStore.Find {K V : Type} [DecidableEq K] [Inhabited V] (s : MemStore K V) (id : K) :
    Option V × Bool :=
  let (val, found) := s.store.index id
  (some val, found)

/-- The method `(*MemStore).Store`: the map assignment, then the address of
the parameter `value` and a nil error. -/
def MemStore.Store {K V : Type} [DecidableEq K] (s : MemStore K V) (id : K) (value : V) :
    Option ((Option V × Option GoError) × MemStore K V) :=
  match s.store.assign id value with
  | none => none
  | some m => some ((some value, none), { store := m })

/-! ## `MemStoreWithValidation` -/

/-- The struct `MemStoreWithValidation[K, V]`: the embedded base store and the
validator. -/
structure MemStoreWithValidation (K : Type) (V : Type) where
  MemStore : MemStore K V
  validate : V → Option GoError

/-- The method `(*MemStoreWithValidation).Find`. -/
def MemStoreWithValidation.Find {K V : Type} [DecidableEq K] [Inhabited V]
    (s : MemStoreWithValidation K V) (id : K) : Option V × Bool :=
  s.MemStore.Find id

/-- The method `(*MemStoreWithValidation).Store`: a rejected value returns a
nil pointer and the wrapped error before the base store is reached. -/
def MemStoreWithValidation.Store {K V : Type} [DecidableEq K]
    (s : MemStoreWithValidation K V) (id : K) (value : V) :
    Option ((Option V × Option GoError) × MemStoreWithValidation K V) :=
  match s.validate value with
  | some err => some ((none, some (Errorfw "value is invalid: " err)), s)
  | none =>
    match s.MemStore.Store id value with
    | none => none
    | some (r, m) => some (r, { s with MemStore := m })

/-! ## The interface `Store` -/

/-- A value of the interface `Store[K, V]`: one of its two implementations. -/
inductive Store (K : Type) (V : Type) where
  | memStore (s : MemStore K V)
  | memStoreWithValidation (s : MemStoreWithValidation K V)

/-- The function `NewMemStore`. -/
def NewMemStore {K V : Type} : Store K V :=
  .memStore newMemStore

/-- The function `NewMemStoreWithValidation`. -/
def NewMemStoreWithValidation {K V : Type} (validator : V → Option GoError) : Store K V :=
  .memStoreWithValidation { MemStore := newMemStore, validate := validator }

/-- The interface call `s.Find(id)`. -/
def Store.Find {K V : Type} [DecidableEq K] [Inhabited V] (s : mem_store.Store K V) (id : K) :
    Option V × Bool :=
  match s with
  | .memStore m => m.Find id
  | .memStoreWithValidation m => m.Find id

/-- The interface call `s.Store(id, value)`. -/
def Store.Store {K V : Type} [DecidableEq K] (s : mem_store.Store K V) (id : K) (value : V) :
    Option ((Option V × Option GoError) × mem_store.Store K V) :=
  match s with
  | .memStore m =>
    match m.Store id value with
    | none => none
    | some (r, m') => some (r, .memStore m')
  | .memStoreWithValidation m =>
    match m.Store id value with
    | none => none
    | some (r, m') => some (r, .memStoreWithValidation m')

/-- The base store behind an interface value: the store itself, or the one a
validating store embeds. -/
def Store.base {K V : Type} (s : mem_store.Store K V) : MemStore K V :=
  match s with
  | .memStore m => m
  | .memStoreWithValidation m => m.MemStore

/-- One call through the interface. -/
inductive Call (K : Type) (V : Type) where
  | Find (id : K)
  | Store (id : K) (value : V)

/-- What one call returned. -/
inductive Result (V : Type) where
  | found (value : Option V) (ok : Bool)
  | stored (value : Option V) (err : Option GoError)

/-- The effect of one call: what it returned and the state it left. -/
def Store.call {K V : Type} [DecidableEq K] [Inhabited V] (s : mem_store.Store K V) :
    Call K V → Option (Result V × mem_store.Store K V)
  | .Find id => some (.found (s.Find id).1 (s.Find id).2, s)
  | .Store id value =>
    match s.Store id value with
    | none => none
    | some (r, s') => some (.stored r.1 r.2, s')

/-- The effect of a sequence of calls, in order: the results and the final
state, or `none` when one of them panics. -/
def Store.run {K V : Type} [DecidableEq K] [Inhabited V] (s : mem_store.Store K V) :
    List (Call K V) → Option (List (Result V) × mem_store.Store K V)
  | [] => some ([], s)
  | c :: cs =>
    match s.call c with
    | none => none
    | some (r, s') =>
      match Store.run s' cs with
      | none => none
      | some (rs, s'') => some (r :: rs, s'')

/-- Whether a write of `value` through the interface reaches the map: always
for the base store, and for a validating store when its validator returns a
nil error. -/
def Store.accepts {K V : Type} (s : mem_store.Store K V) (value : V) : Bool :=
  match s with
  | .memStore _ => true
  | .memStoreWithValidation m => (m.validate value).isNone

/-- The value of the last call `Store(k, v)` in `calls` among those whose value
is `counted`, if there is one. -/
def lastStored {K V : Type} [DecidableEq K] (counted : V → Bool) (k : K) :
    List (Call K V) → Option V
  | [] => none
  | c :: cs =>
    match lastStored counted k cs with
    | some v => some v
    | none =>
      match c with
      | .Store id value => if id = k ∧ counted value = true then some value else none
      | .Find _ => none

/-- The states a store can be in after any number of `Store` calls, starting
from `init` (`Find` leaves the state as it is). -/
inductive Store.Reachable {K V : Type} [DecidableEq K] (init : mem_store.Store K V) :
    mem_store.Store K V → Prop where
  | start : Store.Reachable init init
  | store {s s' : mem_store.Store K V} {id : K} {value : V} {r : Option V × Option GoError} :
      Store.Reachable init s → s.Store id value = some (r, s') → Store.Reachable init s'

end mem_store

/-! ## `pkg/ads` and the examples of `main.go` -/

namespace ads

/-- The standard library's `time.Time`, by its fields; `loc` is the location
pointer. -/
structure Time where
  wall : Nat
  ext : Int
  loc : Option Nat
deriving DecidableEq, Repr

instance : Inhabited Time := ⟨{ wall := 0, ext := 0, loc := none }⟩

/-- The struct `ads.Ad`. -/
structure Ad where
  Title : String
  Description : String
  CreatedAt : Time
  ID : String
  Price : Int
deriving DecidableEq, Repr

/-- The zero value of `Ad`. -/
instance : Inhabited Ad :=
  ⟨{ Title := "", Description := "", CreatedAt := default, ID := "", Price := 0 }⟩

end ads

namespace main

open mem_store ads

/-- The builtin `len` on a string: its number of bytes. -/
def len (s : String) : Nat :=
  s.utf8ByteSize

/-- The validator closure passed to `NewMemStoreWithValidation` in `main`. -/
def validator (ad : Ad) : Option GoError :=
  if len ad.Description > 20 then
    some (Errorf "description must be 20 characters or less")
  else
    none

/-- The variable `validatorAdStore` of `main`. -/
def validatorAdStore : Store String Ad :=
  NewMemStoreWithValidation validator

/-- The variable `adToStore` of `main`. -/
def adToStore : Ad :=
  { Title := "ad title"
    Description := "more than twenty character long"
    CreatedAt := default
    ID := "ad-id"
    Price := 32 }

/-- The value stored in `adStore` by `main`. -/
def adExample : Ad :=
  { Title := "my add title"
    Description := "my ad description"
    CreatedAt := default
    ID := "ad-id"
    Price := 32 }

/-- The variable `adStore` of `main`. -/
def adStore : Store String Ad :=
  NewMemStore

/-- The variable `stringStore` of `main`. -/
def stringStore : Store String String :=
  NewMemStore

end main

/-! ## Lemmas on maps and on the two stores -/

namespace mem_store

variable {K V : Type}

theorem lookup_erase_ne [DecidableEq K] (entries : List (K × V)) (id id' : K) (h : id' ≠ id) :
    lookup (erase entries id) id' = lookup entries id' := by
  induction entries with
  | nil => rfl
  | cons e rest ih =>
    obtain ⟨k, v⟩ := e
    by_cases hk : k = id
    · subst hk
      have hne : ¬ k = id' := fun h' => h h'.symm
      simp [erase, lookup, hne, ih]
    · by_cases hk' : k = id'
      · subst hk'
        simp [erase, lookup, hk]
      · simp [erase, lookup, hk, hk', ih]

theorem lookup_erase_same [DecidableEq K] (entries : List (K × V)) (id : K) :
    lookup (erase entries id) id = none := by
  induction entries with
  | nil => rfl
  | cons e rest ih =>
    obtain ⟨k, v⟩ := e
    by_cases hk : k = id
    · simp [erase, hk, ih]
    · simp [erase, lookup, hk, ih]

theorem lookup_assign [DecidableEq K] (entries : List (K × V)) (id id' : K) (value : V) :
    lookup ((id, value) :: erase entries id) id'
      = if id = id' then some value else lookup entries id' := by
  by_cases h : id = id'
  · simp [lookup, h]
  · have h' : id' ≠ id := fun e => h e.symm
    simp [lookup, h, lookup_erase_ne entries id id' h']

theorem MemStore.Store_allocated [DecidableEq K] (entries : List (K × V)) (id : K) (value : V) :
    MemStore.Store { store := some entries } id value
      = some ((some value, none),
          { store := some ((id, value) :: erase entries id) }) := rfl

theorem MemStore.Store_nil [DecidableEq K] (id : K) (value : V) :
    MemStore.Store ({ store := none } : MemStore K V) id value = none := rfl

theorem MemStore.Find_allocated [DecidableEq K] [Inhabited V] (entries : List (K × V)) (id : K) :
    MemStore.Find { store := some entries } id
      = match lookup entries id with
        | some v => (some v, true)
        | none => (some default, false) := by
  cases h : lookup entries id <;> simp [MemStore.Find, GoMap.index, h]

theorem MemStore.Find_nil [DecidableEq K] [Inhabited V] (id : K) :
    MemStore.Find ({ store := none } : MemStore K V) id = (some default, false) := rfl

theorem MemStore.Find_absent [DecidableEq K] [Inhabited V] (s : MemStore K V)
    (entries : List (K × V)) (id : K) (h : s.store = some entries)
    (habs : lookup entries id = none) :
    s.Find id = (some default, false) := by
  obtain ⟨m⟩ := s
  simp only at h
  subst h
  rw [MemStore.Find_allocated, habs]

theorem MemStore.Find_Store_same [DecidableEq K] [Inhabited V] (entries : List (K × V))
    (id : K) (value : V) :
    MemStore.Find { store := some ((id, value) :: erase entries id) } id
      = (some value, true) := by
  rw [MemStore.Find_allocated, lookup_assign]
  simp

theorem MemStore.exists_entries_of_ne_none (s : MemStore K V) (h : s.store ≠ none) :
    ∃ entries, s = { store := some entries } := by
  obtain ⟨m⟩ := s
  cases m with
  | none => exact absurd rfl h
  | some entries => exact ⟨entries, rfl⟩

/-- Every state reached from `NewMemStore` is a base store over an allocated map. -/
theorem Store.Reachable_NewMemStore [DecidableEq K] {s : mem_store.Store K V}
    (h : Store.Reachable NewMemStore s) :
    ∃ entries, s = .memStore { store := some entries } := by
  induction h with
  | start => exact ⟨[], rfl⟩
  | store _ hs ih =>
    obtain ⟨entries, rfl⟩ := ih
    simp only [Store.Store, MemStore.Store_allocated, Option.some.injEq, Prod.mk.injEq] at hs
    exact ⟨_, hs.2.symm⟩

end mem_store

namespace mem_store

variable {K V : Type}

theorem Store.Find_eq_base [DecidableEq K] [Inhabited V] (s : mem_store.Store K V) (id : K) :
    s.Find id = s.base.Find id := by
  cases s <;> rfl

/-- On an allocated map a `Store` call through the interface returns, and the
map it leaves is the old one or the old one with the new entry. -/
theorem Store.Store_base [DecidableEq K] (s : mem_store.Store K V) (entries : List (K × V))
    (h : s.base.store = some entries) (id : K) (value : V) :
    ∃ r s', s.Store id value = some (r, s') ∧
      (s'.base.store = some entries ∨
        s'.base.store = some ((id, value) :: erase entries id)) := by
  cases s with
  | memStore m =>
    obtain ⟨m⟩ := m
    simp only [Store.base] at h
    subst h
    exact ⟨_, _, rfl, Or.inr rfl⟩
  | memStoreWithValidation m =>
    obtain ⟨⟨m⟩, validate⟩ := m
    simp only [Store.base] at h
    subst h
    cases hv : validate value with
    | none =>
      refine ⟨(some value, none), .memStoreWithValidation
        { MemStore := { store := some ((id, value) :: erase entries id) }, validate := validate },
        ?_, Or.inr rfl⟩
      simp [Store.Store, MemStoreWithValidation.Store, hv, MemStore.Store_allocated]
    | some err =>
      refine ⟨(none, some (Errorfw "value is invalid: " err)), .memStoreWithValidation
        { MemStore := { store := some entries }, validate := validate }, ?_, Or.inl rfl⟩
      simp [Store.Store, MemStoreWithValidation.Store, hv]

/-- A sequence of calls that never stores under `k`, run on an allocated map
without `k`, returns and leaves an allocated map without `k`. -/
theorem Store.run_absent [DecidableEq K] [Inhabited V] (k : K) (calls : List (Call K V))
    (hk : ∀ v, Call.Store k v ∉ calls) (s : mem_store.Store K V) (entries : List (K × V))
    (h : s.base.store = some entries) (habs : lookup entries k = none) :
    ∃ rs s' entries', s.run calls = some (rs, s') ∧ s'.base.store = some entries' ∧
      lookup entries' k = none := by
  induction calls generalizing s entries with
  | nil => exact ⟨[], s, entries, rfl, h, habs⟩
  | cons c cs ih =>
    have hcs : ∀ v, Call.Store k v ∉ cs := fun v hv => hk v (List.mem_cons_of_mem _ hv)
    cases c with
    | Find id =>
      obtain ⟨rs, s', entries', hrun, hs', habs'⟩ := ih hcs s entries h habs
      exact ⟨Result.found (s.Find id).1 (s.Find id).2 :: rs, s', entries',
        by simp [Store.run, Store.call, hrun], hs', habs'⟩
    | Store id value =>
      have hid : id ≠ k := by
        intro e
        subst e
        exact hk value (List.mem_cons_self _ _)
      obtain ⟨r, s1, hstore, hs1⟩ := Store.Store_base s entries h id value
      have hnext : ∃ entries1, s1.base.store = some entries1 ∧ lookup entries1 k = none := by
        rcases hs1 with h1 | h1
        · exact ⟨entries, h1, habs⟩
        · refine ⟨_, h1, ?_⟩
          rw [lookup_assign]
          simp [hid, habs]
      obtain ⟨entries1, h1, habs1⟩ := hnext
      obtain ⟨rs, s', entries', hrun, hs', habs'⟩ := ih hcs s1 entries1 h1 habs1
      exact ⟨Result.stored r.1 r.2 :: rs, s', entries',
        by simp [Store.run, Store.call, hstore, hrun], hs', habs'⟩

/-- C1. Write-then-read on the base store: in every state reached from
`NewMemStore`, for any key type with decidable equality and any value type,
`Store(k, v)` returns a pointer to `v` with a nil error, and the `Find(k)` that
follows returns a pointer to a value equal to `v` with `found = true`. -/
theorem write_then_read [DecidableEq K] [Inhabited V] (s : mem_store.Store K V)
    (h : Store.Reachable NewMemStore s) (k : K) (v : V) :
    ∃ s', s.Store k v = some ((some v, none), s') ∧ s'.Find k = (some v, true) := by
  obtain ⟨entries, rfl⟩ := Store.Reachable_NewMemStore h
  refine ⟨.memStore { store := some ((k, v) :: erase entries k) }, rfl, ?_⟩
  exact MemStore.Find_Store_same entries k v

/-- The instances of C1 that `main` runs: the record store at `"ad-id"` and the
text store, the latter in a state that already holds an entry. -/
theorem write_then_read_witness :
    (Store.Reachable NewMemStore main.adStore ∧
      ∃ s', main.adStore.Store "ad-id" main.adExample = some ((some main.adExample, none), s') ∧
        s'.Find "ad-id" = (some main.adExample, true)) ∧
    (Store.Reachable NewMemStore
        (Store.memStore { store := some [("other-id", "other-value")] } :
          mem_store.Store String String) ∧
      ∃ s', (Store.memStore { store := some [("other-id", "other-value")] } :
            mem_store.Store String String).Store "string-id" "string-value"
          = some ((some "string-value", none), s') ∧
        s'.Find "string-id" = (some "string-value", true)) :=
  ⟨⟨Store.Reachable.start,
      write_then_read main.adStore Store.Reachable.start "ad-id" main.adExample⟩,
    ⟨Store.Reachable.store Store.Reachable.start
        (rfl : (NewMemStore : mem_store.Store String String).Store "other-id" "other-value" = _),
      write_then_read _
        (Store.Reachable.store Store.Reachable.start
          (rfl : (NewMemStore : mem_store.Store String String).Store "other-id" "other-value" = _))
        "string-id" "string-value"⟩⟩

/-- C2, as stated for every base store state, fails on the zero value of
`MemStore`: its map is nil, so the first `Store("k", "v1")` panics and no
`Find` follows that could return `("v2", true)`. -/
theorem overwrite_zero_value_counterexample :
    MemStore.Store ({ store := none } : MemStore String String) "k" "v1" = none ∧
    ¬ ∃ r1 s1 s2,
        MemStore.Store ({ store := none } : MemStore String String) "k" "v1" = some (r1, s1) ∧
        s1.Store "k" "v2" = some ((some "v2", none), s2) ∧
        s2.Find "k" = (some "v2", true) := by
  refine ⟨rfl, ?_⟩
  rintro ⟨r1, s1, s2, h, -⟩
  simp [MemStore.Store_nil] at h

/-- C2, amended. Overwrite, last write wins: in every base store state whose
map is allocated (as it is in every state reached from `NewMemStore`),
`Store(k, v1)` then `Store(k, v2)` both return with a nil error, the second
although `k` is present, and the `Find(k)` that follows returns `(v2, true)`. -/
theorem overwrite_last_write_wins [DecidableEq K] [Inhabited V] (s : MemStore K V)
    (h : s.store ≠ none) (k : K) (v1 v2 : V) :
    ∃ s1 s2, s.Store k v1 = some ((some v1, none), s1) ∧
      s1.Find k = (some v1, true) ∧
      s1.Store k v2 = some ((some v2, none), s2) ∧
      s2.Find k = (some v2, true) := by
  obtain ⟨entries, rfl⟩ := MemStore.exists_entries_of_ne_none s h
  exact ⟨_, _, MemStore.Store_allocated entries k v1, MemStore.Find_Store_same entries k v1,
    MemStore.Store_allocated _ k v2, MemStore.Find_Store_same _ k v2⟩

/-- The amended C2 on a fresh text store, keyed as in `main`. -/
theorem overwrite_last_write_wins_witness :
    (newMemStore : MemStore String String).store ≠ none ∧
    ∃ s1 s2, (newMemStore : MemStore String String).Store "string-id" "first"
        = some ((some "first", none), s1) ∧
      s1.Find "string-id" = (some "first", true) ∧
      s1.Store "string-id" "string-value" = some ((some "string-value", none), s2) ∧
      s2.Find "string-id" = (some "string-value", true) :=
  ⟨by decide,
    overwrite_last_write_wins newMemStore (by decide) "string-id" "first" "string-value"⟩

/-- C3. Absence: after any sequence of calls on a store fresh from `NewMemStore`
or from `NewMemStoreWithValidation` in which `k` was never written (the empty
sequence included), the sequence returns and `Find(k)` gives `found = false`
with a non-nil pointer to the zero value of `V`. -/
theorem find_never_written [DecidableEq K] [Inhabited V] (validator : V → Option GoError)
    (calls : List (Call K V)) (k : K) (hk : ∀ v, Call.Store k v ∉ calls) :
    (∃ rs s, (NewMemStore : mem_store.Store K V).run calls = some (rs, s) ∧
      s.Find k = (some default, false)) ∧
    (∃ rs s, (NewMemStoreWithValidation validator : mem_store.Store K V).run calls
        = some (rs, s) ∧
      s.Find k = (some default, false)) := by
  constructor
  · obtain ⟨rs, s, entries, hrun, hs, habs⟩ :=
      Store.run_absent k calls hk (NewMemStore : mem_store.Store K V) [] rfl rfl
    refine ⟨rs, s, hrun, ?_⟩
    rw [Store.Find_eq_base]
    exact MemStore.Find_absent s.base entries k hs habs
  · obtain ⟨rs, s, entries, hrun, hs, habs⟩ :=
      Store.run_absent k calls hk
        (NewMemStoreWithValidation validator : mem_store.Store K V) [] rfl rfl
    refine ⟨rs, s, hrun, ?_⟩
    rw [Store.Find_eq_base]
    exact MemStore.Find_absent s.base entries k hs habs

/-- C3 after the calls of `main` on the record store (a write under `"ad-id"`,
then a read), for the key `"foo-id"`, which they never write. -/
theorem find_never_written_witness :
    (∀ v, Call.Store "foo-id" v ∉
      [Call.Store "ad-id" main.adExample, (Call.Find "ad-id" : Call String ads.Ad)]) ∧
    (∃ rs s, (NewMemStore : mem_store.Store String ads.Ad).run
        [Call.Store "ad-id" main.adExample, Call.Find "ad-id"] = some (rs, s) ∧
      s.Find "foo-id" = (some default, false)) ∧
    (∃ rs s, (NewMemStoreWithValidation main.validator : mem_store.Store String ads.Ad).run
        [Call.Store "ad-id" main.adExample, Call.Find "ad-id"] = some (rs, s) ∧
      s.Find "foo-id" = (some default, false)) :=
  ⟨by simp,
    find_never_written main.validator
      [Call.Store "ad-id" main.adExample, Call.Find "ad-id"] "foo-id" (by simp)⟩

/-- C4. Atomicity of a rejected write: in every state of a validating store,
when the validator returns an error on `v`, `Store(k, v)` returns and leaves the
wrapped map exactly as it was, so that `Find` gives for every key, `k` included,
what it gave before the call. -/
theorem rejected_write_leaves_map [DecidableEq K] [Inhabited V]
    (s : MemStoreWithValidation K V) (k : K) (v : V) (e : GoError)
    (h : s.validate v = some e) :
    ∃ r s', s.Store k v = some (r, s') ∧ s'.MemStore.store = s.MemStore.store ∧
      ∀ k', s'.Find k' = s.Find k' :=
  ⟨(none, some (Errorfw "value is invalid: " e)), s,
    by simp [MemStoreWithValidation.Store, h], rfl, fun _ => rfl⟩

/-- C4 on a validating record store that holds an accepted entry under
`"ad-id"`: the rejected `adToStore` of `main` neither replaces it nor adds a
key. -/
theorem rejected_write_leaves_map_witness :
    main.validator main.adToStore
      = some (Errorf "description must be 20 characters or less") ∧
    ∃ r s', MemStoreWithValidation.Store
        { MemStore := { store := some [("ad-id", main.adExample)] },
          validate := main.validator } "ad-id" main.adToStore = some (r, s') ∧
      s'.MemStore.store = some [("ad-id", main.adExample)] ∧
      ∀ k', s'.Find k' = MemStoreWithValidation.Find
        { MemStore := { store := some [("ad-id", main.adExample)] },
          validate := main.validator } k' :=
  ⟨by decide,
    rejected_write_leaves_map
      { MemStore := { store := some [("ad-id", main.adExample)] }, validate := main.validator }
      "ad-id" main.adToStore (Errorf "description must be 20 characters or less") (by decide)⟩

theorem MemStore.Find_of_not_found [DecidableEq K] [Inhabited V] (s : MemStore K V) (id : K)
    (h : (s.Find id).2 = false) : s.Find id = (some default, false) := by
  obtain ⟨m⟩ := s
  cases m with
  | none => rfl
  | some entries =>
    rw [MemStore.Find_allocated] at h ⊢
    cases hl : lookup entries id with
    | none => rfl
    | some v => simp [hl] at h

/-- C5, as stated, fails on a validating store that already holds an accepted
value under `k`: after `main`'s accepted record is stored under `"ad-id"`, the
rejected `adToStore` returns the validation error, and the `Find("ad-id")` that
follows still returns the accepted record with `found = true`, not the zero
value with `false`. -/
theorem rejected_write_present_key_counterexample :
    ∃ s err s',
      main.validatorAdStore.Store "ad-id" main.adExample
        = some ((some main.adExample, none), s) ∧
      main.validator main.adToStore ≠ none ∧
      s.Store "ad-id" main.adToStore = some ((none, some err), s') ∧
      s'.Find "ad-id" = (some main.adExample, true) ∧
      s'.Find "ad-id" ≠ (some default, false) :=
  ⟨.memStoreWithValidation
      { MemStore := { store := some [("ad-id", main.adExample)] }, validate := main.validator },
    Errorfw "value is invalid: " (Errorf "description must be 20 characters or less"),
    .memStoreWithValidation
      { MemStore := { store := some [("ad-id", main.adExample)] }, validate := main.validator },
    rfl, by decide, rfl, by decide, by decide⟩

/-- C5, amended. A rejected write is non-mutating: in every state of a
validating store, when the validator rejects `v`, `Store(k, v)` returns a nil
pointer and a validation error, and the `Find(k)` that follows returns what
`Find(k)` returned before the call, which is the zero value and `false` when
`k` was not in the store. -/
theorem rejected_write_find_as_before [DecidableEq K] [Inhabited V]
    (s : MemStoreWithValidation K V) (k : K) (v : V) (e : GoError)
    (h : s.validate v = some e) :
    ∃ err s', s.Store k v = some ((none, some err), s') ∧
      s'.Find k = s.Find k ∧
      ((s.Find k).2 = false → s'.Find k = (some default, false)) :=
  ⟨Errorfw "value is invalid: " e, s, by simp [MemStoreWithValidation.Store, h], rfl,
    fun hf => MemStore.Find_of_not_found s.MemStore k hf⟩

/-- The amended C5 on a validating record store that holds `"other-id"` only:
the rejected `adToStore` leaves `"ad-id"` absent. -/
theorem rejected_write_find_as_before_witness :
    main.validator main.adToStore
      = some (Errorf "description must be 20 characters or less") ∧
    ∃ err s', MemStoreWithValidation.Store
        { MemStore := { store := some [("other-id", main.adExample)] },
          validate := main.validator } "ad-id" main.adToStore = some ((none, some err), s') ∧
      s'.Find "ad-id" = MemStoreWithValidation.Find
        { MemStore := { store := some [("other-id", main.adExample)] },
          validate := main.validator } "ad-id" ∧
      ((MemStoreWithValidation.Find
        { MemStore := { store := some [("other-id", main.adExample)] },
          validate := main.validator } "ad-id").2 = false →
        s'.Find "ad-id" = (some default, false)) :=
  ⟨by decide,
    rejected_write_find_as_before
      { MemStore := { store := some [("other-id", main.adExample)] },
        validate := main.validator }
      "ad-id" main.adToStore (Errorf "description must be 20 characters or less") (by decide)⟩

/-- C6, as stated for every validating store state, fails on a validating store
whose embedded `MemStore` is the zero value: the validator accepts the value,
the write reaches the nil map and panics, and nothing is returned. -/
theorem accepted_write_zero_value_counterexample :
    main.validator main.adExample = none ∧
    MemStoreWithValidation.Store
      { MemStore := { store := none }, validate := main.validator } "ad-id" main.adExample
      = none ∧
    ¬ ∃ r s', MemStoreWithValidation.Store
        { MemStore := { store := none }, validate := main.validator } "ad-id" main.adExample
        = some (r, s') ∧ s'.Find "ad-id" = (some main.adExample, true) := by
  refine ⟨by decide, rfl, ?_⟩
  rintro ⟨r, s', h, -⟩
  have h0 : MemStoreWithValidation.Store
      { MemStore := { store := none }, validate := main.validator } "ad-id" main.adExample
      = none := rfl
  rw [h0] at h
  exact Option.noConfusion h

/-- C6, amended. An accepted write delegates fully: in every state of a
validating store whose wrapped map is allocated (as in every state of a store
made by `NewMemStoreWithValidation`), when the validator returns nil on `v`,
`Store(k, v)` returns a pointer to `v` and a nil error and the `Find(k)` that
follows returns `(v, true)`; the base store's `Store` and `Find` on the wrapped
store give the same results and the same map. -/
theorem accepted_write_then_read [DecidableEq K] [Inhabited V]
    (s : MemStoreWithValidation K V) (hs : s.MemStore.store ≠ none) (k : K) (v : V)
    (h : s.validate v = none) :
    ∃ s' m', s.Store k v = some ((some v, none), s') ∧
      s'.Find k = (some v, true) ∧
      s.MemStore.Store k v = some ((some v, none), m') ∧
      m'.Find k = (some v, true) ∧
      s'.MemStore = m' := by
  obtain ⟨m, validate⟩ := s
  obtain ⟨entries, rfl⟩ := MemStore.exists_entries_of_ne_none m hs
  simp only at h
  refine ⟨{ MemStore := { store := some ((k, v) :: erase entries k) }, validate := validate },
    { store := some ((k, v) :: erase entries k) }, ?_, ?_, rfl, ?_, rfl⟩
  · simp [MemStoreWithValidation.Store, h, MemStore.Store_allocated]
  · exact MemStore.Find_Store_same entries k v
  · exact MemStore.Find_Store_same entries k v

/-- The amended C6 on the fresh validating store of `main` with the accepted
record of `main`. -/
theorem accepted_write_then_read_witness :
    (newMemStore : MemStore String ads.Ad).store ≠ none ∧
    main.validator main.adExample = none ∧
    ∃ s' m', MemStoreWithValidation.Store
        { MemStore := newMemStore, validate := main.validator } "ad-id" main.adExample
        = some ((some main.adExample, none), s') ∧
      s'.Find "ad-id" = (some main.adExample, true) ∧
      (newMemStore : MemStore String ads.Ad).Store "ad-id" main.adExample
        = some ((some main.adExample, none), m') ∧
      m'.Find "ad-id" = (some main.adExample, true) ∧
      s'.MemStore = m' :=
  ⟨by decide, by decide,
    accepted_write_then_read { MemStore := newMemStore, validate := main.validator }
      (by decide) "ad-id" main.adExample (by decide)⟩

/-- C7, as stated for every validating store state, fails on a validating store
whose embedded `MemStore` is the zero value: the validator accepts the value,
yet `Store` does not return `(pointer to v, nil)`; it panics on the nil map, as
the base `Store` does on the wrapped store. -/
theorem accepted_write_result_counterexample :
    (MemStore.Store ({ store := none } : MemStore String String) "string-id" "string-value"
        = none ∧
      MemStoreWithValidation.Store
        ({ MemStore := { store := none }, validate := fun _ => none } :
          MemStoreWithValidation String String) "string-id" "string-value" = none) ∧
    ¬ ∃ s', MemStoreWithValidation.Store
        ({ MemStore := { store := none }, validate := fun _ => none } :
          MemStoreWithValidation String String) "string-id" "string-value"
        = some ((some "string-value", none), s') := by
  refine ⟨⟨rfl, rfl⟩, ?_⟩
  rintro ⟨s', h⟩
  have h0 : MemStoreWithValidation.Store
      ({ MemStore := { store := none }, validate := fun _ => none } :
        MemStoreWithValidation String String) "string-id" "string-value" = none := rfl
  rw [h0] at h
  exact Option.noConfusion h

/-- C7, amended. Error iff rejected: in every state of a validating store,
`Store(k, v)` returns a non-nil error exactly when the validator returns a
non-nil error on `v`; when the validator accepts `v`, the outcome (returned pair
and resulting map, or the panic on a nil map) is the outcome of the base
`Store(k, v)` on the wrapped store, and it is `(pointer to v, nil)` whenever the
wrapped map is allocated. -/
theorem store_error_iff_rejected [DecidableEq K] (s : MemStoreWithValidation K V)
    (k : K) (v : V) :
    ((∃ p e s', s.Store k v = some ((p, some e), s')) ↔ s.validate v ≠ none) ∧
    (s.validate v = none →
      s.Store k v
        = (s.MemStore.Store k v).map (fun out => (out.1, { s with MemStore := out.2 }))) ∧
    (s.validate v = none → s.MemStore.store ≠ none →
      ∃ m', s.MemStore.Store k v = some ((some v, none), m') ∧
        s.Store k v = some ((some v, none), { s with MemStore := m' })) := by
  obtain ⟨⟨m⟩, validate⟩ := s
  refine ⟨?_, ?_, ?_⟩
  · constructor
    · rintro ⟨p, e, s', h⟩ hv
      simp only at hv
      cases m with
      | none => simp [MemStoreWithValidation.Store, hv, MemStore.Store_nil] at h
      | some entries =>
        simp [MemStoreWithValidation.Store, hv, MemStore.Store_allocated] at h
    · intro hv
      simp only at hv
      cases hv' : validate v with
      | none => exact absurd hv' hv
      | some e =>
        exact ⟨none, Errorfw "value is invalid: " e,
          { MemStore := { store := m }, validate := validate },
          by simp [MemStoreWithValidation.Store, hv']⟩
  · intro hv
    simp only at hv
    cases m with
    | none => simp [MemStoreWithValidation.Store, hv, MemStore.Store_nil]
    | some entries => simp [MemStoreWithValidation.Store, hv, MemStore.Store_allocated]
  · intro hv hm
    simp only at hv
    cases m with
    | none => exact absurd rfl hm
    | some entries =>
      exact ⟨{ store := some ((k, v) :: erase entries k) }, rfl,
        by simp [MemStoreWithValidation.Store, hv, MemStore.Store_allocated]⟩

/-- The amended C7 on a fresh validating store that accepts everything. -/
theorem store_error_iff_rejected_witness :
    ((∃ p e s', MemStoreWithValidation.Store
          ({ MemStore := newMemStore, validate := fun _ => none } :
            MemStoreWithValidation String String) "string-id" "string-value"
          = some ((p, some e), s')) ↔
        (fun _ => none : String → Option GoError) "string-value" ≠ none) ∧
    ∃ m', (newMemStore : MemStore String String).Store "string-id" "string-value"
        = some ((some "string-value", none), m') ∧
      MemStoreWithValidation.Store
          ({ MemStore := newMemStore, validate := fun _ => none } :
            MemStoreWithValidation String String) "string-id" "string-value"
        = some ((some "string-value", none),
            { MemStore := m', validate := fun _ => none }) :=
  ⟨(store_error_iff_rejected
      ({ MemStore := newMemStore, validate := fun _ => none } :
        MemStoreWithValidation String String) "string-id" "string-value").1,
    (store_error_iff_rejected
      ({ MemStore := newMemStore, validate := fun _ => none } :
        MemStoreWithValidation String String) "string-id" "string-value").2.2 rfl (by decide)⟩

/-- C8. The validation error carries the reason: in every state of a validating
store, when the validator rejects `v` with error `e`, `Store(k, v)` returns a
nil pointer and an error whose message is `"value is invalid: "` followed by the
message of `e`, and whose unwrapping gives back `e`. -/
theorem validation_error_carries_reason [DecidableEq K] (s : MemStoreWithValidation K V)
    (k : K) (v : V) (e : GoError) (h : s.validate v = some e) :
    ∃ err s', s.Store k v = some ((none, some err), s') ∧
      err.Error = "value is invalid: " ++ e.Error ∧
      err.Unwrap = some e :=
  ⟨Errorfw "value is invalid: " e, s, by simp [MemStoreWithValidation.Store, h], rfl, rfl⟩

/-- C8 on the validating store of `main` and its rejected record: the message
is the one `main` prints. -/
theorem validation_error_carries_reason_witness :
    main.validator main.adToStore
      = some (Errorf "description must be 20 characters or less") ∧
    ∃ err s', MemStoreWithValidation.Store
        { MemStore := newMemStore, validate := main.validator } "ad-id" main.adToStore
        = some ((none, some err), s') ∧
      err.Error = "value is invalid: " ++
        (Errorf "description must be 20 characters or less").Error ∧
      err.Unwrap = some (Errorf "description must be 20 characters or less") :=
  ⟨by decide,
    validation_error_carries_reason
      { MemStore := newMemStore, validate := main.validator } "ad-id" main.adToStore
      (Errorf "description must be 20 characters or less") (by decide)⟩

end mem_store

namespace main

open mem_store ads

theorem utf8Len_ge_length (cs : List Char) : cs.length ≤ String.utf8ByteSize.go cs := by
  induction cs with
  | nil => exact Nat.le_refl 0
  | cons c cs ih =>
    have hc : 0 < c.utf8Size := Char.utf8Size_pos c
    simp only [List.length_cons, String.utf8ByteSize.go]
    omega

/-- A string has at least as many bytes as characters. -/
theorem length_le_len (s : String) : s.length ≤ len s := by
  obtain ⟨cs⟩ := s
  exact utf8Len_ge_length cs

/-- The example rule rejects exactly the descriptions of more than 20 bytes. -/
theorem validator_rejects_iff (ad : Ad) :
    validator ad ≠ none ↔ len ad.Description > 20 := by
  unfold validator
  split <;> simp_all

theorem validator_of_long (ad : Ad) (h : ad.Description.length > 20) :
    validator ad = some (Errorf "description must be 20 characters or less") := by
  have hlen : len ad.Description > 20 := Nat.lt_of_lt_of_le h (length_le_len ad.Description)
  simp [validator, hlen]

/-- C9. The scenario of `main`: on the store fresh from
`NewMemStoreWithValidation` with the example rule, storing under `"ad-id"` any
record whose description has more than 20 characters returns a nil pointer and
the validation error, and afterwards `Find("ad-id")` reports `found = false`
(with a pointer to the zero record). -/
theorem long_description_rejected (ad : Ad) (h : ad.Description.length > 20) :
    ∃ s', validatorAdStore.Store "ad-id" ad
        = some ((none, some (Errorfw "value is invalid: "
            (Errorf "description must be 20 characters or less"))), s') ∧
      (Errorfw "value is invalid: "
          (Errorf "description must be 20 characters or less")).Error
        = "value is invalid: description must be 20 characters or less" ∧
      s'.Find "ad-id" = (some default, false) := by
  refine ⟨validatorAdStore, ?_, by decide, by decide⟩
  simp [validatorAdStore, NewMemStoreWithValidation, Store.Store, MemStoreWithValidation.Store,
    validator_of_long ad h]

/-- C9 on the record `adToStore` of `main`, whose description has 31
characters, and on a record with a description of 32 characters. -/
theorem long_description_rejected_witness :
    (adToStore.Description.length > 20 ∧
      ∃ s', validatorAdStore.Store "ad-id" adToStore
          = some ((none, some (Errorfw "value is invalid: "
              (Errorf "description must be 20 characters or less"))), s') ∧
        (Errorfw "value is invalid: "
            (Errorf "description must be 20 characters or less")).Error
          = "value is invalid: description must be 20 characters or less" ∧
        s'.Find "ad-id" = (some default, false)) ∧
    (({ adToStore with Description := "a description of thirty-two char" } : Ad).Description.length
        = 32 ∧
      ∃ s', validatorAdStore.Store "ad-id"
            { adToStore with Description := "a description of thirty-two char" }
          = some ((none, some (Errorfw "value is invalid: "
              (Errorf "description must be 20 characters or less"))), s') ∧
        (Errorfw "value is invalid: "
            (Errorf "description must be 20 characters or less")).Error
          = "value is invalid: description must be 20 characters or less" ∧
        s'.Find "ad-id" = (some default, false)) :=
  ⟨⟨by decide, long_description_rejected adToStore (by decide)⟩,
    ⟨by decide,
      long_description_rejected
        { adToStore with Description := "a description of thirty-two char" } (by decide)⟩⟩

/-- C10 fails on a description of 11 two-byte characters: `len` counts its 22
bytes, so the rule rejects it, with the message that the description must be
20 characters or less, although it has 11 characters; on the fresh validating
store the record is not stored. -/
theorem short_multibyte_description_rejected :
    ({ adExample with Description := "ééééééééééé" } : Ad).Description.length = 11 ∧
    len ({ adExample with Description := "ééééééééééé" } : Ad).Description = 22 ∧
    validator { adExample with Description := "ééééééééééé" }
      = some (Errorf "description must be 20 characters or less") ∧
    ∃ s', validatorAdStore.Store "ad-id" { adExample with Description := "ééééééééééé" }
        = some ((none, some (Errorfw "value is invalid: "
            (Errorf "description must be 20 characters or less"))), s') ∧
      s'.Find "ad-id" = (some default, false) :=
  ⟨by decide, by decide, by decide, validatorAdStore, rfl, by decide⟩

end main

/-! ## Sequences of calls on constructed stores -/

namespace mem_store

variable {K V : Type}

/-- One `Store` call through the interface on an allocated map: it returns, the
error is nil exactly when the value is accepted, and the map gets the new entry
exactly then. -/
theorem Store.Store_step [DecidableEq K] (s : mem_store.Store K V) (entries : List (K × V))
    (h : s.base.store = some entries) (id : K) (value : V) :
    ∃ r s', s.Store id value = some (r, s') ∧ s'.accepts = s.accepts ∧
      s'.base.store
        = some (if s.accepts value = true then (id, value) :: erase entries id else entries) ∧
      (s.accepts value = true → r = (some value, none)) ∧
      (s.accepts value = false → r.1 = none ∧ r.2 ≠ none) := by
  cases s with
  | memStore m =>
    obtain ⟨m⟩ := m
    simp only [Store.base] at h
    subst h
    exact ⟨(some value, none), .memStore { store := some ((id, value) :: erase entries id) },
      rfl, rfl, by simp [Store.base, Store.accepts], fun _ => rfl,
      fun hf => by simp [Store.accepts] at hf⟩
  | memStoreWithValidation m =>
    obtain ⟨⟨m⟩, validate⟩ := m
    simp only [Store.base] at h
    subst h
    cases hv : validate value with
    | none =>
      refine ⟨(some value, none), .memStoreWithValidation
        { MemStore := { store := some ((id, value) :: erase entries id) }, validate := validate },
        ?_, rfl, ?_, fun _ => rfl, ?_⟩
      · simp [Store.Store, MemStoreWithValidation.Store, hv, MemStore.Store_allocated]
      · simp [Store.base, Store.accepts, hv]
      · intro hf
        simp [Store.accepts, hv] at hf
    | some err =>
      refine ⟨(none, some (Errorfw "value is invalid: " err)), .memStoreWithValidation
        { MemStore := { store := some entries }, validate := validate }, ?_, rfl, ?_, ?_, ?_⟩
      · simp [Store.Store, MemStoreWithValidation.Store, hv]
      · simp [Store.base, Store.accepts, hv]
      · intro ht
        simp [Store.accepts, hv] at ht
      · intro _
        exact ⟨rfl, by simp⟩

/-- A sequence of calls on an allocated map returns, leaves an allocated map,
and the entry in force for a key is the last counted write under it, or else the
entry from before. -/
theorem Store.run_spec [DecidableEq K] [Inhabited V] (calls : List (Call K V))
    (s : mem_store.Store K V) (entries : List (K × V)) (h : s.base.store = some entries) :
    ∃ rs s' entries', s.run calls = some (rs, s') ∧ s'.accepts = s.accepts ∧
      s'.base.store = some entries' ∧
      ∀ k, lookup entries' k
        = match lastStored s.accepts k calls with
          | some v => some v
          | none => lookup entries k := by
  induction calls generalizing s entries with
  | nil => exact ⟨[], s, entries, rfl, rfl, h, fun k => rfl⟩
  | cons c cs ih =>
    cases c with
    | Find id =>
      obtain ⟨rs, s', entries', hrun, hacc, hs', hl⟩ := ih s entries h
      refine ⟨Result.found (s.Find id).1 (s.Find id).2 :: rs, s', entries',
        by simp [Store.run, Store.call, hrun], hacc, hs', ?_⟩
      intro k
      rw [hl k]
      cases hc : lastStored s.accepts k cs <;> simp [lastStored, hc]
    | Store id value =>
      obtain ⟨r, s1, hstore, hacc1, hs1, -, -⟩ := Store.Store_step s entries h id value
      obtain ⟨rs, s', entries', hrun, hacc, hs', hl⟩ := ih s1 _ hs1
      refine ⟨Result.stored r.1 r.2 :: rs, s', entries',
        by simp [Store.run, Store.call, hstore, hrun], hacc.trans hacc1, hs', ?_⟩
      intro k
      rw [hl k, hacc1]
      cases hc : lastStored s.accepts k cs with
      | some v => simp [lastStored, hc]
      | none =>
        simp only [lastStored, hc]
        by_cases ha : s.accepts value = true
        · by_cases hk : id = k
          · simp [ha, hk, lookup_assign]
          · simp [ha, hk, lookup_assign]
        · simp [ha]

/-- What `lastStored` finds is the value of a counted call `Store(k, v)` of the
sequence. -/
theorem lastStored_mem [DecidableEq K] (counted : V → Bool) (k : K) (calls : List (Call K V))
    (v : V) (h : lastStored counted k calls = some v) :
    Call.Store k v ∈ calls ∧ counted v = true := by
  induction calls with
  | nil => simp [lastStored] at h
  | cons c cs ih =>
    cases hc : lastStored counted k cs with
    | some w =>
      simp only [lastStored, hc, Option.some.injEq] at h
      subst h
      exact ⟨List.mem_cons_of_mem _ (ih hc).1, (ih hc).2⟩
    | none =>
      cases c with
      | Find id => simp [lastStored, hc] at h
      | Store id value =>
        simp only [lastStored, hc] at h
        split at h
        · rename_i hif
          simp only [Option.some.injEq] at h
          subst h
          obtain ⟨rfl, hcv⟩ := hif
          exact ⟨List.mem_cons_self _ _, hcv⟩
        · simp at h

/-- A sequence with a counted call `Store(k, v)` has a last one. -/
theorem lastStored_of_mem [DecidableEq K] (counted : V → Bool) (k : K)
    (calls : List (Call K V)) (v : V) (hm : Call.Store k v ∈ calls) (hv : counted v = true) :
    ∃ w, lastStored counted k calls = some w := by
  induction calls with
  | nil => simp at hm
  | cons c cs ih =>
    cases hc : lastStored counted k cs with
    | some w => exact ⟨w, by simp [lastStored, hc]⟩
    | none =>
      rcases List.mem_cons.mp hm with heq | hin
      · subst heq
        exact ⟨v, by simp [lastStored, hc, hv]⟩
      · obtain ⟨w, hw⟩ := ih hin
        rw [hc] at hw
        exact absurd hw (by simp)

/-- The last counted write under `k` is the one after which no counted write
under `k` follows. -/
theorem lastStored_append [DecidableEq K] (counted : V → Bool) (k : K)
    (before after : List (Call K V)) (v : V) (hv : counted v = true)
    (hafter : ∀ w, Call.Store k w ∈ after → counted w = false) :
    lastStored counted k (before ++ Call.Store k v :: after) = some v := by
  have hnone : lastStored counted k after = none := by
    cases hc : lastStored counted k after with
    | none => rfl
    | some w =>
      obtain ⟨hm, hcw⟩ := lastStored_mem counted k after w hc
      rw [hafter w hm] at hcw
      exact absurd hcw (by simp)
  induction before with
  | nil => simp [lastStored, hnone, hv]
  | cons c cs ih => simp [lastStored, ih]

theorem MemStore.Find_found_iff [DecidableEq K] [Inhabited V] (s : MemStore K V)
    (entries : List (K × V)) (h : s.store = some entries) (id : K) (v : V) :
    s.Find id = (some v, true) ↔ lookup entries id = some v := by
  obtain ⟨m⟩ := s
  simp only at h
  subst h
  rw [MemStore.Find_allocated]
  cases lookup entries id <;> simp

theorem MemStore.Find_ok_iff [DecidableEq K] [Inhabited V] (s : MemStore K V)
    (entries : List (K × V)) (h : s.store = some entries) (id : K) :
    (s.Find id).2 = true ↔ ∃ v, lookup entries id = some v := by
  obtain ⟨m⟩ := s
  simp only at h
  subst h
  rw [MemStore.Find_allocated]
  cases lookup entries id <;> simp

/-- C11. The write of the base store always succeeds and returns what was
stored: in every state reached from `NewMemStore`, `Store(k, v)` returns (it
does not panic) a nil error and a non-nil pointer to a value equal to `v`, and
the state it leaves is again one reached from `NewMemStore`. -/
theorem base_store_write_succeeds [DecidableEq K] (s : mem_store.Store K V)
    (h : Store.Reachable NewMemStore s) (k : K) (v : V) :
    ∃ p e s', s.Store k v = some ((p, e), s') ∧ p = some v ∧ e = none ∧
      Store.Reachable NewMemStore s' := by
  obtain ⟨entries, rfl⟩ := Store.Reachable_NewMemStore h
  exact ⟨some v, none, .memStore { store := some ((k, v) :: erase entries k) }, rfl, rfl, rfl,
    Store.Reachable.store h rfl⟩

/-- C11 on the two base stores of `main`, the text store after its first
write. -/
theorem base_store_write_succeeds_witness :
    (Store.Reachable NewMemStore main.adStore ∧
      ∃ p e s', main.adStore.Store "ad-id" main.adExample = some ((p, e), s') ∧
        p = some main.adExample ∧ e = none ∧ Store.Reachable NewMemStore s') ∧
    (Store.Reachable NewMemStore
        (Store.memStore { store := some [("string-id", "string-value")] } :
          mem_store.Store String String) ∧
      ∃ p e s', (Store.memStore { store := some [("string-id", "string-value")] } :
            mem_store.Store String String).Store "string-id" "again" = some ((p, e), s') ∧
        p = some "again" ∧ e = none ∧ Store.Reachable NewMemStore s') :=
  ⟨⟨Store.Reachable.start,
      base_store_write_succeeds main.adStore Store.Reachable.start "ad-id" main.adExample⟩,
    ⟨Store.Reachable.store Store.Reachable.start
        (rfl : main.stringStore.Store "string-id" "string-value" = _),
      base_store_write_succeeds _
        (Store.Reachable.store Store.Reachable.start
          (rfl : main.stringStore.Store "string-id" "string-value" = _))
        "string-id" "again"⟩⟩

/-- C12. The validated-contents invariant: on a store made by
`NewMemStoreWithValidation`, any finite sequence of `Find` and `Store` calls
through the interface returns, and every value the store then holds (every `v`
that `Find(k)` returns with `found = true` for some `k`) is one the validator
accepts. -/
theorem validated_contents [DecidableEq K] [Inhabited V] (validator : V → Option GoError)
    (calls : List (Call K V)) :
    ∃ rs s, (NewMemStoreWithValidation validator : mem_store.Store K V).run calls
        = some (rs, s) ∧
      ∀ k v, s.Find k = (some v, true) → validator v = none := by
  obtain ⟨rs, s, entries, hrun, -, hs, hl⟩ :=
    Store.run_spec calls (NewMemStoreWithValidation validator : mem_store.Store K V) [] rfl
  refine ⟨rs, s, hrun, ?_⟩
  intro k v hfind
  rw [Store.Find_eq_base, MemStore.Find_found_iff s.base entries hs] at hfind
  rw [hl k] at hfind
  cases hc : lastStored (NewMemStoreWithValidation validator : mem_store.Store K V).accepts
      k calls with
  | none =>
    rw [hc] at hfind
    simp [lookup] at hfind
  | some w =>
    rw [hc] at hfind
    simp only [Option.some.injEq] at hfind
    subst hfind
    have hcounted := (lastStored_mem _ k calls w hc).2
    simpa [Store.accepts, NewMemStoreWithValidation] using hcounted

/-- On a fresh store, after a sequence of calls, `Find(k)` is decided by the
last counted write under `k`. -/
theorem Store.run_fresh [DecidableEq K] [Inhabited V] (calls : List (Call K V))
    (s : mem_store.Store K V) (h : s.base.store = some []) :
    ∃ rs s', s.run calls = some (rs, s') ∧
      ∀ k, ((s'.Find k).2 = true ↔ ∃ v, lastStored s.accepts k calls = some v) ∧
        ∀ v, lastStored s.accepts k calls = some v → s'.Find k = (some v, true) := by
  obtain ⟨rs, s', entries, hrun, -, hs, hl⟩ := Store.run_spec calls s [] h
  refine ⟨rs, s', hrun, fun k => ⟨?_, ?_⟩⟩
  · rw [Store.Find_eq_base, MemStore.Find_ok_iff s'.base entries hs, hl k]
    cases lastStored s.accepts k calls <;> simp [lookup]
  · intro v hv
    rw [Store.Find_eq_base, MemStore.Find_found_iff s'.base entries hs, hl k, hv]

/-- C13. No implicit entries: on a store fresh from `NewMemStore`, any finite
sequence of calls returns, and then `Find(k)` gives `found = true` exactly when
some call of the sequence was `Store(k, _)`, the value being that of the last
such call; on a store fresh from `NewMemStoreWithValidation` the same holds with
only the calls counted whose value the validator accepted. -/
theorem no_implicit_entries [DecidableEq K] [Inhabited V] (validator : V → Option GoError)
    (calls : List (Call K V)) (k : K) :
    (∃ rs s, (NewMemStore : mem_store.Store K V).run calls = some (rs, s) ∧
      ((s.Find k).2 = true ↔ ∃ v, Call.Store k v ∈ calls) ∧
      ∀ before after v, calls = before ++ Call.Store k v :: after →
        (∀ w, Call.Store k w ∉ after) → s.Find k = (some v, true)) ∧
    (∃ rs s, (NewMemStoreWithValidation validator : mem_store.Store K V).run calls
        = some (rs, s) ∧
      ((s.Find k).2 = true ↔ ∃ v, Call.Store k v ∈ calls ∧ validator v = none) ∧
      ∀ before after v, calls = before ++ Call.Store k v :: after → validator v = none →
        (∀ w, Call.Store k w ∈ after → validator w ≠ none) → s.Find k = (some v, true)) := by
  constructor
  · obtain ⟨rs, s, hrun, hk⟩ :=
      Store.run_fresh calls (NewMemStore : mem_store.Store K V) rfl
    refine ⟨rs, s, hrun, ?_, ?_⟩
    · rw [(hk k).1]
      constructor
      · rintro ⟨v, hv⟩
        exact ⟨v, (lastStored_mem _ k calls v hv).1⟩
      · rintro ⟨v, hv⟩
        exact lastStored_of_mem _ k calls v hv rfl
    · intro before after v hcalls hafter
      apply (hk k).2
      rw [hcalls]
      exact lastStored_append _ k before after v rfl (fun w hw => absurd hw (hafter w))
  · obtain ⟨rs, s, hrun, hk⟩ :=
      Store.run_fresh calls (NewMemStoreWithValidation validator : mem_store.Store K V) rfl
    refine ⟨rs, s, hrun, ?_, ?_⟩
    · rw [(hk k).1]
      constructor
      · rintro ⟨v, hv⟩
        obtain ⟨hm, hc⟩ := lastStored_mem _ k calls v hv
        exact ⟨v, hm, by simpa [Store.accepts, NewMemStoreWithValidation] using hc⟩
      · rintro ⟨v, hv, hacc⟩
        exact lastStored_of_mem _ k calls v hv
          (by simp [Store.accepts, NewMemStoreWithValidation, hacc])
    · intro before after v hcalls hacc hafter
      apply (hk k).2
      rw [hcalls]
      refine lastStored_append _ k before after v
        (by simp [Store.accepts, NewMemStoreWithValidation, hacc]) ?_
      intro w hw
      have hrej := hafter w hw
      cases hvw : validator w with
      | none => exact absurd hvw hrej
      | some e => simp [Store.accepts, NewMemStoreWithValidation, hvw]

/-- C14. `Find` is read-only: for either implementation and in every state, the
call `Find(k)` returns and leaves the store, and so its map, as it was, so that
any `Find(k')` after it gives what it gave before; a call that does change the
map is a `Store` that returned its value with a nil error. -/
theorem find_read_only [DecidableEq K] [Inhabited V] (s : mem_store.Store K V) (k : K) :
    (∃ r, s.call (Call.Find k) = some (r, s)) ∧
    (∀ r s', s.call (Call.Find k) = some (r, s') →
      s'.base.store = s.base.store ∧ ∀ k', s'.Find k' = s.Find k') ∧
    (∀ c r s', s.call c = some (r, s') → s'.base.store ≠ s.base.store →
      ∃ id value, c = Call.Store id value ∧ r = Result.stored (some value) none) := by
  refine ⟨⟨_, rfl⟩, ?_, ?_⟩
  · intro r s' h
    simp only [Store.call, Option.some.injEq, Prod.mk.injEq] at h
    obtain ⟨-, rfl⟩ := h
    exact ⟨rfl, fun _ => rfl⟩
  · intro c r s' h hne
    cases c with
    | Find id =>
      simp only [Store.call, Option.some.injEq, Prod.mk.injEq] at h
      obtain ⟨-, rfl⟩ := h
      exact absurd rfl hne
    | Store id value =>
      refine ⟨id, value, rfl, ?_⟩
      cases s with
      | memStore m =>
        obtain ⟨m⟩ := m
        cases m with
        | none => simp [Store.call, Store.Store, MemStore.Store_nil] at h
        | some entries =>
          simp only [Store.call, Store.Store, MemStore.Store_allocated, Option.some.injEq,
            Prod.mk.injEq] at h
          exact h.1.symm
      | memStoreWithValidation m =>
        obtain ⟨⟨m⟩, validate⟩ := m
        cases hv : validate value with
        | some err =>
          simp only [Store.call, Store.Store, MemStoreWithValidation.Store, hv,
            Option.some.injEq, Prod.mk.injEq] at h
          obtain ⟨-, rfl⟩ := h
          exact absurd rfl hne
        | none =>
          cases m with
          | none =>
            simp [Store.call, Store.Store, MemStoreWithValidation.Store, hv,
              MemStore.Store_nil] at h
          | some entries =>
            simp only [Store.call, Store.Store, MemStoreWithValidation.Store, hv,
              MemStore.Store_allocated, Option.some.injEq, Prod.mk.injEq] at h
            exact h.1.symm

/-- C15. Reads are never validated: in every state of a validating store,
`Find(k)` is `Find(k)` of the base store on the wrapped store; it does not
depend on the validator, and a held value is returned with `found = true`
whatever the validator says of it. -/
theorem find_not_validated [DecidableEq K] [Inhabited V] (s : MemStoreWithValidation K V)
    (k : K) :
    s.Find k = s.MemStore.Find k ∧
    (Store.memStoreWithValidation s).Find k = (Store.memStore s.MemStore).Find k ∧
    (∀ validate : V → Option GoError,
      MemStoreWithValidation.Find { MemStore := s.MemStore, validate := validate } k
        = s.Find k) ∧
    (∀ entries v, s.MemStore.store = some entries → lookup entries k = some v →
      s.Find k = (some v, true)) :=
  ⟨rfl, rfl, fun _ => rfl,
    fun entries v hs hl => (MemStore.Find_found_iff s.MemStore entries hs k v).mpr hl⟩

/-- C16. The write frame: in every state of the base store, for keys `k'`
different from `k`, a `Store(k, v)` that returns leaves `Find(k')` as it was,
and so does an accepted `Store(k, v)` on a validating store over that state;
both return when the map is allocated, and on a nil map they panic at the
assignment, before anything is written. -/
theorem write_frame [DecidableEq K] [Inhabited V] (s : MemStore K V)
    (validate : V → Option GoError) (k k' : K) (v : V) (hne : k' ≠ k) :
    (∀ r s', s.Store k v = some (r, s') → s'.Find k' = s.Find k') ∧
    (∀ r s', validate v = none →
      MemStoreWithValidation.Store { MemStore := s, validate := validate } k v = some (r, s') →
      s'.Find k' = MemStoreWithValidation.Find { MemStore := s, validate := validate } k') ∧
    (s.store ≠ none →
      (∃ r s', s.Store k v = some (r, s')) ∧
      (validate v = none →
        ∃ r s', MemStoreWithValidation.Store { MemStore := s, validate := validate } k v
          = some (r, s'))) ∧
    (s.store = none →
      s.Store k v = none ∧
      (validate v = none →
        MemStoreWithValidation.Store { MemStore := s, validate := validate } k v = none)) := by
  obtain ⟨m⟩ := s
  cases m with
  | none =>
    refine ⟨?_, ?_, fun h => absurd rfl h, fun _ => ⟨rfl, ?_⟩⟩
    · intro r s' h
      simp [MemStore.Store_nil] at h
    · intro r s' hv h
      simp [MemStoreWithValidation.Store, hv, MemStore.Store_nil] at h
    · intro hv
      simp [MemStoreWithValidation.Store, hv, MemStore.Store_nil]
  | some entries =>
    have hfind : MemStore.Find { store := some ((k, v) :: erase entries k) } k'
        = MemStore.Find { store := some entries } k' := by
      have hkk : ¬ k = k' := fun e => hne e.symm
      rw [MemStore.Find_allocated, MemStore.Find_allocated, lookup_assign]
      simp [hkk]
    refine ⟨?_, ?_, fun _ => ⟨⟨_, _, MemStore.Store_allocated entries k v⟩, ?_⟩, ?_⟩
    · intro r s' h
      simp only [MemStore.Store_allocated, Option.some.injEq, Prod.mk.injEq] at h
      obtain ⟨-, rfl⟩ := h
      exact hfind
    · intro r s' hv h
      simp only [MemStoreWithValidation.Store, hv, MemStore.Store_allocated,
        Option.some.injEq, Prod.mk.injEq] at h
      obtain ⟨-, rfl⟩ := h
      exact hfind
    · intro hv
      exact ⟨(some v, none),
        { MemStore := { store := some ((k, v) :: erase entries k) }, validate := validate },
        by simp [MemStoreWithValidation.Store, hv, MemStore.Store_allocated]⟩
    · intro h
      simp at h

/-- C16 on a text store that holds `"other-id"`: a write under `"string-id"`,
direct or through a validator that accepts everything, leaves `"other-id"` as
it was. -/
theorem write_frame_witness :
    "other-id" ≠ "string-id" ∧
    (∀ r s', MemStore.Store ({ store := some [("other-id", "other-value")] } :
          MemStore String String) "string-id" "string-value" = some (r, s') →
      s'.Find "other-id" = (some "other-value", true)) ∧
    (∃ r s', MemStore.Store ({ store := some [("other-id", "other-value")] } :
          MemStore String String) "string-id" "string-value" = some (r, s')) :=
  ⟨by decide,
    (write_frame ({ store := some [("other-id", "other-value")] } : MemStore String String)
      (fun _ => none) "string-id" "other-id" "string-value" (by decide)).1,
    ((write_frame ({ store := some [("other-id", "other-value")] } : MemStore String String)
      (fun _ => none) "string-id" "other-id" "string-value" (by decide)).2.2.1
        (by decide)).1⟩

theorem Store.run_length [DecidableEq K] [Inhabited V] (calls : List (Call K V))
    (s : mem_store.Store K V) (rs : List (Result V)) (s' : mem_store.Store K V)
    (h : s.run calls = some (rs, s')) : rs.length = calls.length := by
  induction calls generalizing s rs s' with
  | nil =>
    simp only [Store.run, Option.some.injEq, Prod.mk.injEq] at h
    obtain ⟨rfl, -⟩ := h
    rfl
  | cons c cs ih =>
    simp only [Store.run] at h
    cases hc : s.call c with
    | none => simp [hc] at h
    | some out =>
      obtain ⟨r, s1⟩ := out
      cases hrun : s1.run cs with
      | none => simp [hc, hrun] at h
      | some out' =>
        obtain ⟨rs1, s2⟩ := out'
        simp only [hc, hrun, Option.some.injEq, Prod.mk.injEq] at h
        obtain ⟨rfl, -⟩ := h
        simp [ih s1 rs1 s2 hrun]

/-- Under a validator that accepts every value, a validating store over `m`
answers a sequence of calls as the base store `m` does, and keeps wrapping the
state the base store is left in. -/
theorem Store.run_accept_all [DecidableEq K] [Inhabited V] (validator : V → Option GoError)
    (hacc : ∀ v, validator v = none) (calls : List (Call K V)) (m : MemStore K V) :
    (Store.memStoreWithValidation { MemStore := m, validate := validator }).run calls
      = ((Store.memStore m).run calls).map
          (fun out => (out.1,
            Store.memStoreWithValidation { MemStore := out.2.base, validate := validator })) := by
  induction calls generalizing m with
  | nil => rfl
  | cons c cs ih =>
    cases c with
    | Find id =>
      simp only [Store.run, Store.call, Store.Find, MemStoreWithValidation.Find]
      rw [ih m]
      cases (Store.memStore m).run cs <;> rfl
    | Store id value =>
      obtain ⟨m⟩ := m
      cases m with
      | none =>
        simp [Store.run, Store.call, Store.Store, MemStoreWithValidation.Store, hacc,
          MemStore.Store_nil]
      | some entries =>
        simp only [Store.run, Store.call, Store.Store, MemStoreWithValidation.Store, hacc,
          MemStore.Store_allocated]
        rw [ih]
        cases (Store.memStore
          ({ store := some ((id, value) :: erase entries id) } : MemStore K V)).run cs <;> rfl

/-- Every write the base store answers, it answers with a nil error. -/
theorem Store.run_memStore_errors [DecidableEq K] [Inhabited V] (calls : List (Call K V))
    (m : MemStore K V) (rs : List (Result V)) (s' : mem_store.Store K V)
    (h : (Store.memStore m).run calls = some (rs, s')) :
    ∀ p e, Result.stored p e ∈ rs → e = none := by
  induction calls generalizing m rs s' with
  | nil =>
    simp only [Store.run, Option.some.injEq, Prod.mk.injEq] at h
    obtain ⟨rfl, -⟩ := h
    intro p e hm
    simp at hm
  | cons c cs ih =>
    cases c with
    | Find id =>
      simp only [Store.run, Store.call] at h
      cases hrun : (Store.memStore m).run cs with
      | none => simp [hrun] at h
      | some out =>
        obtain ⟨rs1, s1⟩ := out
        simp only [hrun, Option.some.injEq, Prod.mk.injEq] at h
        obtain ⟨rfl, -⟩ := h
        intro p e hm
        rcases List.mem_cons.mp hm with heq | hin
        · cases heq
        · exact ih m rs1 s1 hrun p e hin
    | Store id value =>
      obtain ⟨m⟩ := m
      cases m with
      | none => simp [Store.run, Store.call, Store.Store, MemStore.Store_nil] at h
      | some entries =>
        simp only [Store.run, Store.call, Store.Store, MemStore.Store_allocated] at h
        cases hrun : (Store.memStore
          ({ store := some ((id, value) :: erase entries id) } : MemStore K V)).run cs with
        | none => simp [hrun] at h
        | some out =>
          obtain ⟨rs1, s1⟩ := out
          simp only [hrun, Option.some.injEq, Prod.mk.injEq] at h
          obtain ⟨rfl, -⟩ := h
          intro p e hm
          rcases List.mem_cons.mp hm with heq | hin
          · simp only [Result.stored.injEq] at heq
            exact heq.2
          · exact ih _ rs1 s1 hrun p e hin

/-- C17. Decorator transparency: a store made by `NewMemStoreWithValidation`
with a validator that accepts every value and a store made by `NewMemStore`
answer every finite sequence of `Find` and `Store` calls alike: both return, the
results (values, found flags, errors) are the same at every step, the errors are
all nil, and the base store behind the two is left the same. -/
theorem decorator_transparent [DecidableEq K] [Inhabited V] (validator : V → Option GoError)
    (hacc : ∀ v, validator v = none) (calls : List (Call K V)) :
    ∃ rs s1 s2, (NewMemStore : mem_store.Store K V).run calls = some (rs, s1) ∧
      (NewMemStoreWithValidation validator : mem_store.Store K V).run calls = some (rs, s2) ∧
      rs.length = calls.length ∧
      s2.base = s1.base ∧
      ∀ p e, Result.stored p e ∈ rs → e = none := by
  obtain ⟨rs, s1, entries, hrun, -, -, -⟩ :=
    Store.run_spec calls (NewMemStore : mem_store.Store K V) [] rfl
  have hrun2 := Store.run_accept_all validator hacc calls (newMemStore : MemStore K V)
  refine ⟨rs, s1, .memStoreWithValidation { MemStore := s1.base, validate := validator },
    hrun, ?_, ?_, rfl, Store.run_memStore_errors calls newMemStore rs s1 hrun⟩
  · have hrun' : (Store.memStore (newMemStore : MemStore K V)).run calls = some (rs, s1) := hrun
    rw [hrun'] at hrun2
    exact hrun2
  · exact Store.run_length calls _ rs s1 hrun

/-- C17 on the calls `main` makes on its text store, with a validator that
returns nil on every value. -/
theorem decorator_transparent_witness :
    (∀ v : String, (fun _ => none : String → Option GoError) v = none) ∧
    ∃ rs s1 s2,
      (NewMemStore : mem_store.Store String String).run
          [Call.Store "string-id" "string-value", Call.Find "string-id"] = some (rs, s1) ∧
      (NewMemStoreWithValidation (fun _ => none) : mem_store.Store String String).run
          [Call.Store "string-id" "string-value", Call.Find "string-id"] = some (rs, s2) ∧
      rs.length
        = [Call.Store "string-id" "string-value",
            (Call.Find "string-id" : Call String String)].length ∧
      s2.base = s1.base ∧
      ∀ p e, Result.stored p e ∈ rs → e = none :=
  ⟨fun _ => rfl,
    decorator_transparent (fun _ => none) (fun _ => rfl)
      [Call.Store "string-id" "string-value", Call.Find "string-id"]⟩

/-- C18. Constructed stores never hit the nil-map write: the store returned by
`NewMemStore` or by `NewMemStoreWithValidation` holds an allocated, empty map;
every `Find` and `Store` call on an allocated map returns and leaves the map
allocated; so every finite sequence of calls on a constructed store returns,
no assignment panicking, and leaves the map allocated. The zero value of
`MemStore`, whose map is nil, panics on `Store`. -/
theorem constructed_stores_never_panic [DecidableEq K] [Inhabited V]
    (validator : V → Option GoError) (calls : List (Call K V)) :
    ((NewMemStore : mem_store.Store K V).base.store = some [] ∧
      (NewMemStoreWithValidation validator : mem_store.Store K V).base.store = some []) ∧
    (∀ (s : mem_store.Store K V) (c : Call K V), s.base.store ≠ none →
      ∃ r s', s.call c = some (r, s') ∧ s'.base.store ≠ none) ∧
    (∃ rs s, (NewMemStore : mem_store.Store K V).run calls = some (rs, s) ∧
      s.base.store ≠ none) ∧
    (∃ rs s, (NewMemStoreWithValidation validator : mem_store.Store K V).run calls
        = some (rs, s) ∧
      s.base.store ≠ none) ∧
    (∀ (k : K) (v : V),
      MemStore.Store ({ store := none } : MemStore K V) k v = none ∧
      (Store.memStore ({ store := none } : MemStore K V)).call (Call.Store k v) = none) := by
  refine ⟨⟨rfl, rfl⟩, ?_, ?_, ?_, fun k v => ⟨rfl, rfl⟩⟩
  · intro s c hs
    obtain ⟨entries, hentries⟩ := MemStore.exists_entries_of_ne_none s.base hs
    have hstore : s.base.store = some entries := by rw [hentries]
    cases c with
    | Find id => exact ⟨_, s, rfl, hs⟩
    | Store id value =>
      obtain ⟨r, s', hcall, -, hs', -, -⟩ := Store.Store_step s entries hstore id value
      exact ⟨Result.stored r.1 r.2, s', by simp [Store.call, hcall], by simp [hs']⟩
  · obtain ⟨rs, s, entries, hrun, -, hs, -⟩ :=
      Store.run_spec calls (NewMemStore : mem_store.Store K V) [] rfl
    exact ⟨rs, s, hrun, by simp [hs]⟩
  · obtain ⟨rs, s, entries, hrun, -, hs, -⟩ :=
      Store.run_spec calls (NewMemStoreWithValidation validator : mem_store.Store K V) [] rfl
    exact ⟨rs, s, hrun, by simp [hs]⟩

end mem_store
